import Mathlib

/-!
Verification of the WrapCapPDF text-extraction wrapper.

Python strings are modelled as lists of characters. The fallible engine
calls (pymupdf and pymupdf4llm.to_markdown) are modelled as an Except
value supplied to the extraction functions; all pure string processing
(regex substitution passes, heading promotion, marker slicing, path
validation, the lazy memory buffer) is translated directly from
src/WrapCapPDF/pdf_extractor.py.
-/

namespace WrapCapPDF

/-! Character classes and Python string strip. -/

/-- Whitespace as recognised by the Python regex class and str.strip. -/
def pyIsSpace (c : Char) : Bool :=
  c = ' ' || c = '\t' || c = '\n' || c = '\r' || c = '\x0b' || c = '\x0c'

/-- Python str.strip with no argument: trim whitespace from both ends. -/
def stripChars (l : List Char) : List Char :=
  ((l.dropWhile pyIsSpace).reverse.dropWhile pyIsSpace).reverse

/-- Membership in the character set of strip with spaces and asterisks. -/
def spaceStar (c : Char) : Bool :=
  c = ' ' || c = '*'

/-- Python strip with the two-character argument of space and asterisk. -/
def stripSet (l : List Char) : List Char :=
  ((l.dropWhile spaceStar).reverse.dropWhile spaceStar).reverse

/-- A single space character. -/
def isSpaceChar (c : Char) : Bool := c = ' '

/-- Trim space characters only, from both ends. -/
def stripSpaces (l : List Char) : List Char :=
  ((l.dropWhile isSpaceChar).reverse.dropWhile isSpaceChar).reverse

/-! Python str.find modelled over lists. -/

/-- Linear scan for the first index at or after the current position where
the pattern is a prefix of the remaining list; fuel bounds the scan. -/
def pyFindGo (s sub : List Char) : Nat → Nat → Option Nat
  | 0, _ => none
  | fuel + 1, j => if sub.isPrefixOf (s.drop j) then some j else pyFindGo s sub fuel (j + 1)

/-- Python s.find(sub, i): smallest index at or after i where sub occurs,
none standing for the Python return value -1. -/
def pyFind (s sub : List Char) (i : Nat) : Option Nat :=
  if i ≤ s.length then pyFindGo s sub (s.length + 1 - i) i else none

/-- Python truthiness of an optional string argument: None and the empty
string are falsy. -/
def truthy : Option (List Char) → Bool
  | none => false
  | some s => !s.isEmpty

/-- The shared marker-slicing block of extract_markdown_content and
extract_text_content (pdf_extractor.py lines 36-44 and 59-67). -/
def sliceContent (content : List Char) (sm em : Option (List Char)) : List Char :=
  if truthy sm || truthy em then
    match (if truthy sm then pyFind content (sm.getD []) 0 else some 0) with
    | none => stripChars content
    | some si =>
      match (if truthy em then pyFind content (em.getD []) si else some content.length) with
      | none => stripChars content
      | some ei => stripChars ((content.take ei).drop si)
  else content

/-- The pattern occurs somewhere in the list. -/
def occursIn (s pat : List Char) : Prop :=
  ∃ k ∈ List.range (s.length + 1), pat.isPrefixOf (s.drop k) = true

/-- idx is the first index at or after base where the pattern occurs. -/
def isFirstMatchFrom (s pat : List Char) (base idx : Nat) : Prop :=
  base ≤ idx ∧ idx ≤ s.length ∧ pat.isPrefixOf (s.drop idx) = true ∧
    ∀ k ∈ List.range idx, base ≤ k → pat.isPrefixOf (s.drop k) = false

instance (s pat : List Char) : Decidable (occursIn s pat) := by
  unfold occursIn; infer_instance

instance (s pat : List Char) (base idx : Nat) : Decidable (isFirstMatchFrom s pat base idx) := by
  unfold isFirstMatchFrom; infer_instance

/-! The lazy regex matchers used by the formatting and cleaning passes.
A dot in the Python patterns matches every character except a newline, and
the inner groups are lazy: the shortest newline-free segment followed by
the closing delimiter is taken. -/

/-- Lazy scan for the shortest newline-free segment followed by the given
closing delimiter; models a lazy dot-star group directly before a literal
closing string. -/
def findInner (close : List Char) : List Char → Option (List Char)
  | [] => if close.isPrefixOf ([] : List Char) then some [] else none
  | c :: cs =>
    if close.isPrefixOf (c :: cs) then some []
    else if c = '\n' then none
    else (findInner close cs).map (fun inn => c :: inn)

/-- Leftmost match of an open-group-close style pattern: returns the match
position and the group content. -/
def findStyleMatch (op cl : List Char) : List Char → Option (Nat × List Char)
  | [] =>
    if op.isPrefixOf ([] : List Char) then
      (findInner cl (([] : List Char).drop op.length)).map (fun inn => ((0 : Nat), inn))
    else none
  | c :: cs =>
    match (if op.isPrefixOf (c :: cs) then
             (findInner cl ((c :: cs).drop op.length)).map (fun inn => ((0 : Nat), inn))
           else none) with
    | some r => some r
    | none => (findStyleMatch op cl cs).map (fun p => (p.1 + 1, p.2))

/-- One pass of re.sub for a style pattern whose replacement template
reproduces the delimiters around the captured group. -/
def reSubStyleGo (op cl : List Char) : Nat → List Char → List Char
  | 0, l => l
  | fuel + 1, l =>
    match findStyleMatch op cl l with
    | none => l
    | some (i, inn) =>
      l.take i ++ op ++ inn ++ cl ++
        reSubStyleGo op cl fuel (l.drop (i + (op.length + inn.length + cl.length)))

/-- re.sub over the whole string for one style pattern. -/
def reSubStyle (op cl l : List Char) : List Char :=
  reSubStyleGo op cl (l.length + 1) l

/-- The bold delimiter. -/
def boldMark : List Char := ['*', '*']

/-- The underline delimiter. -/
def underMark : List Char := ['_', '_']

/-- The italic delimiter. -/
def starMark : List Char := ['*']

/-- The three style substitutions of _format_markdown_content
(pdf_extractor.py lines 83-85). -/
def styleSubPass (l : List Char) : List Char :=
  reSubStyle starMark starMark (reSubStyle underMark underMark (reSubStyle boldMark boldMark l))

/-- Python split on a newline character. -/
def splitNl : List Char → List (List Char)
  | [] => [[]]
  | c :: cs =>
    if c = '\n' then [] :: splitNl cs
    else
      match splitNl cs with
      | [] => [[c]]
      | g :: gs => (c :: g) :: gs

/-- Recognise the trailing part of a whole-line bold span: the closing
delimiter followed by whitespace up to the end of the line. -/
def boldTail : List Char → Bool
  | c1 :: c2 :: ws2 => c1 = '*' && c2 = '*' && ws2.all pyIsSpace
  | _ => false

/-- Recognise the part of a whole-line bold span after the opening
delimiter: a nonempty asterisk-free segment, the closing delimiter and
trailing whitespace. -/
def boldMid (rest : List Char) : Bool :=
  !(rest.takeWhile (fun c => c != '*')).isEmpty &&
    boldTail (rest.dropWhile (fun c => c != '*'))

/-- Recognise a line that starts, after leading whitespace, with the full
bold-span shape. -/
def boldHead : List Char → Bool
  | c1 :: c2 :: rest => c1 = '*' && c2 = '*' && boldMid rest
  | _ => false

/-- The regex guard of the heading-promotion loop: a line consisting of
whitespace, a bold span with nonempty asterisk-free content, and
whitespace (pdf_extractor.py line 90). -/
def matchesBoldLine (l : List Char) : Bool :=
  boldHead (l.dropWhile pyIsSpace)

/-- The literal prefix added by the heading promotion. -/
def headingMark : List Char := ['#', '#', ' ']

/-- The loop body of the heading detection (pdf_extractor.py lines 90-91). -/
def promoteLine (l : List Char) : List Char :=
  if matchesBoldLine l then headingMark ++ stripSet l else l

/-- The heading-promotion pass: split into lines, promote whole-line bold
spans, and rejoin. -/
def headingPass (l : List Char) : List Char :=
  List.intercalate ['\n'] ((splitNl l).map promoteLine)

/-- The function _format_markdown_content: the three style substitutions followed by
the heading promotion. -/
def formatMarkdownContent (l : List Char) : List Char :=
  headingPass (styleSubPass l)

/-! Image-reference removal. -/

/-- The opening delimiter of an image reference. -/
def bangBracket : List Char := ['!', '[']

/-- The delimiter between the alt text and the url of an image reference. -/
def closeAlt : List Char := [']', '(']

/-- The closing delimiter of an image reference. -/
def closeUrl : List Char := [')']

/-- Leftmost lazy match of the image-reference pattern: position, alt text
and url. -/
def findImageMatch : List Char → Option (Nat × List Char × List Char)
  | [] => none
  | c :: cs =>
    match (if bangBracket.isPrefixOf (c :: cs) then
             match findInner closeAlt ((c :: cs).drop 2) with
             | some alt =>
               match findInner closeUrl ((c :: cs).drop (2 + alt.length + 2)) with
               | some url => some ((0 : Nat), alt, url)
               | none => none
             | none => none
           else none) with
    | some r => some r
    | none => (findImageMatch cs).map (fun p => (p.1 + 1, p.2))

/-- One pass of re.sub replacing image references by the empty string. -/
def removeImagesGo : Nat → List Char → List Char
  | 0, l => l
  | fuel + 1, l =>
    match findImageMatch l with
    | none => l
    | some (i, alt, url) =>
      l.take i ++ removeImagesGo fuel (l.drop (i + (2 + alt.length + 2 + url.length + 1)))

/-- The function _remove_images_from_markdown_content (pdf_extractor.py lines 75-78). -/
def removeImages (l : List Char) : List Char :=
  removeImagesGo (l.length + 1) l

/-! The extraction pipeline. -/

/-- A dynamically typed Python return value: a string or a boolean. -/
inductive PyValue where
  | str (s : List Char)
  | bool (b : Bool)
deriving DecidableEq

/-- The content after optional cleaning and formatting, before slicing. -/
def processedMarkdown (engineOutput : List Char) (cleaned : Bool) : List Char :=
  formatMarkdownContent (if cleaned then removeImages engineOutput else engineOutput)

/-- The message prefix of the markdown error string. -/
def errPrefixMd : List Char := String.toList "An error occurred while extracting content: "

/-- extract_markdown_content (pdf_extractor.py lines 23-49). The engine
argument stands for the result of the external to_markdown call; an error
value models an exception raised inside the try block. -/
def extract_markdown_content (engine : Except (List Char) (List Char)) (cleaned : Bool)
    (sm em : Option (List Char)) : PyValue :=
  match engine with
  | .error msg => .str (errPrefixMd ++ msg)
  | .ok out => .str (sliceContent (processedMarkdown out cleaned) sm em)

/-- The page join of extract_text_content: page texts joined by a blank
line. -/
def joinPages (pages : List (List Char)) : List Char :=
  List.intercalate ['\n', '\n'] pages

/-- extract_text_content (pdf_extractor.py lines 51-72). The engine
argument stands for the opened document as the list of page texts. -/
def extract_text_content (engine : Except (List Char) (List (List Char)))
    (sm em : Option (List Char)) : PyValue :=
  match engine with
  | .error _ => .bool false
  | .ok pages => .str (sliceContent (joinPages pages) sm em)

/-! Handler construction and the lazy memory buffer. -/

/-- An in-memory byte buffer with a read position, modelling io.BytesIO. -/
structure MemBuffer where
  data : List Nat
  pos : Nat
deriving DecidableEq

/-- The instance state of the handler: the stored path and the optional
cached buffer. -/
structure CapPDFHandler where
  pdf_path : List Char
  memory_file : Option MemBuffer
deriving DecidableEq

/-- The file system as seen by the handler: existence checks and raw
reads. -/
structure FileSystem where
  pathExists : List Char → Bool
  readBytes : List Char → List Nat

/-- The exception types raised by the handler. -/
inductive PyError where
  | fileNotFound
  | valueError
  | notADirectory
deriving DecidableEq

/-- The constructor (pdf_extractor.py lines 14-20): validate existence,
store the path, leave the buffer cache empty. -/
def CapPDFHandler.init (fs : FileSystem) (resource_path : List Char) :
    Except PyError CapPDFHandler :=
  if fs.pathExists resource_path then .ok ⟨resource_path, none⟩
  else .error .fileNotFound

/-- get_memory_file (pdf_extractor.py lines 103-109): fill the cache on
first use, rewind to offset zero, return the buffer. The boolean reports
whether the file was read from disk during this call. -/
def get_memory_file (fs : FileSystem) (h : CapPDFHandler) :
    CapPDFHandler × MemBuffer × Bool :=
  match h.memory_file with
  | none =>
    let buf : MemBuffer := ⟨fs.readBytes h.pdf_path, 0⟩
    ({ h with memory_file := some buf }, buf, true)
  | some b =>
    let buf : MemBuffer := { b with pos := 0 }
    ({ h with memory_file := some buf }, buf, false)

/-- Iterate get_memory_file and count how often the file is read from
disk. -/
def readCountN (fs : FileSystem) : CapPDFHandler → Nat → CapPDFHandler × Nat
  | h, 0 => (h, 0)
  | h, n + 1 =>
    let r := get_memory_file fs h
    let rest := readCountN fs r.1 n
    (rest.1, (if r.2.2 then 1 else 0) + rest.2)

/-! Path validation. -/

/-- The facts about a file-system path that validate_paths consults. -/
structure PathInfo where
  present : Bool
  isFile : Bool
  isDir : Bool
  suffix : List Char
deriving DecidableEq

/-- The expected source extension. -/
def pdfExt : List Char := String.toList ".pdf"

/-- validate_paths (pdf_extractor.py lines 173-186). -/
def validate_paths (source destination : PathInfo) : Except PyError Unit :=
  if !source.present || !source.isFile then .error .fileNotFound
  else if source.suffix.map Char.toLower ≠ pdfExt then .error .valueError
  else if !destination.present then .error .notADirectory
  else if !destination.isDir then .error .notADirectory
  else .ok ()

/-! The markdown save helper. -/

/-- The observable outcome of save_markdown_to_file: either the file was
written with the given content and success was logged, or the exception
was caught and failure was logged. Nothing is ever raised to the
caller. -/
inductive SaveOutcome where
  | savedLog (content : List Char)
  | failLog
deriving DecidableEq

/-- save_markdown_to_file (pdf_extractor.py lines 127-142): extract when
no content is supplied, write, log. The writeOk flag models whether the
file open and write succeed. -/
def save_markdown_to_file (engine : Except (List Char) (List Char)) (writeOk : Bool)
    (contentArg : Option (List Char)) (cleaned : Bool) (sm em : Option (List Char)) :
    SaveOutcome :=
  let md : PyValue :=
    match contentArg with
    | some cnt => .str cnt
    | none => extract_markdown_content engine cleaned sm em
  match md with
  | .str s => if writeOk then .savedLog s else .failLog
  | .bool _ => .failLog

end WrapCapPDF

namespace WrapCapPDF

/-! Prefix helpers. -/

/-- Boolean prefix test unfolded to an append decomposition. -/
theorem isPrefixOf_iff_exists (p : List Char) : ∀ l, p.isPrefixOf l = true ↔ ∃ t, l = p ++ t := by
  induction p with
  | nil => intro l; simp [List.isPrefixOf]
  | cons a as ih =>
    intro l
    cases l with
    | nil => simp [List.isPrefixOf]
    | cons b bs =>
      simp only [List.isPrefixOf, Bool.and_eq_true, beq_iff_eq, ih, List.cons_append]
      constructor
      · rintro ⟨rfl, t, rfl⟩; exact ⟨t, rfl⟩
      · rintro ⟨t, h⟩
        injection h with h1 h2
        exact ⟨h1.symm, t, h2⟩

/-- A prefix of the remainder after a drop decomposes the list. -/
theorem eq_append_drop_of_isPrefixOf {p l : List Char} (h : p.isPrefixOf l = true) :
    l = p ++ l.drop p.length := by
  obtain ⟨t, rfl⟩ := (isPrefixOf_iff_exists p l).1 h
  rw [List.drop_left]

/-- A nonempty pattern is not a prefix of the empty list. -/
theorem isPrefixOf_nil_eq_false {p : List Char} (hp : p ≠ []) :
    p.isPrefixOf ([] : List Char) = false := by
  cases p with
  | nil => exact absurd rfl hp
  | cons a as => rfl

/-- Prefixes are no longer than the list. -/
theorem length_le_of_isPrefixOf {p l : List Char} (h : p.isPrefixOf l = true) :
    p.length ≤ l.length := by
  obtain ⟨t, rfl⟩ := (isPrefixOf_iff_exists p l).1 h
  simp

/-- A nonempty prefix of a dropped remainder forces the index inside the
list. -/
theorem lt_length_of_isPrefixOf {p c : List Char} {si : Nat} (hp : p ≠ [])
    (h : p.isPrefixOf (c.drop si) = true) : si < c.length := by
  by_contra hlt
  push_neg at hlt
  rw [List.drop_eq_nil_of_le hlt] at h
  rw [isPrefixOf_nil_eq_false hp] at h
  exact Bool.false_ne_true h

/-- Prefixes compose across an append decomposition. -/
theorem isPrefixOf_append_combine {p q x : List Char} (h1 : p.isPrefixOf x = true)
    (h2 : q.isPrefixOf (x.drop p.length) = true) : (p ++ q).isPrefixOf x = true := by
  obtain ⟨t, rfl⟩ := (isPrefixOf_iff_exists p x).1 h1
  rw [List.drop_left] at h2
  obtain ⟨u, rfl⟩ := (isPrefixOf_iff_exists q t).1 h2
  exact (isPrefixOf_iff_exists (p ++ q) (p ++ (q ++ u))).2 ⟨u, by rw [List.append_assoc]⟩

/-! Properties of the find scan. -/

/-- The scan returns the first match when one exists in range. -/
theorem pyFindGo_eq_some_of (s sub : List Char) :
    ∀ (fuel base idx : Nat), sub.isPrefixOf (s.drop idx) = true → base ≤ idx →
      idx < base + fuel →
      (∀ k ∈ List.range idx, base ≤ k → sub.isPrefixOf (s.drop k) = false) →
      pyFindGo s sub fuel base = some idx := by
  intro fuel
  induction fuel with
  | zero => intro base idx _ h1 h2 _; omega
  | succ f ih =>
    intro base idx hpre hle hlt hmin
    cases hb : sub.isPrefixOf (s.drop base) with
    | true =>
      have hbe : base = idx := by
        by_contra hne
        have hblt : base < idx := lt_of_le_of_ne hle hne
        have := hmin base (List.mem_range.2 hblt) (le_refl base)
        rw [this] at hb
        exact Bool.false_ne_true hb
      subst hbe
      simp [pyFindGo, hb]
    | false =>
      have hne : base ≠ idx := by
        intro he
        rw [he, hpre] at hb
        exact absurd hb (by simp)
      rw [show pyFindGo s sub (f + 1) base = pyFindGo s sub f (base + 1) by
        simp [pyFindGo, hb]]
      exact ih (base + 1) idx hpre (by omega) (by omega)
        (fun k hk hbk => hmin k hk (by omega))

/-- The scan fails when no index in range matches. -/
theorem pyFindGo_eq_none_of (s sub : List Char) :
    ∀ (fuel base : Nat),
      (∀ k, base ≤ k → k < base + fuel → sub.isPrefixOf (s.drop k) = false) →
      pyFindGo s sub fuel base = none := by
  intro fuel
  induction fuel with
  | zero => intro base _; rfl
  | succ f ih =>
    intro base h
    have hb : sub.isPrefixOf (s.drop base) = false := h base (le_refl _) (by omega)
    rw [show pyFindGo s sub (f + 1) base = pyFindGo s sub f (base + 1) by
      simp [pyFindGo, hb]]
    exact ih (base + 1) (fun k h1 h2 => h k (by omega) (by omega))

/-- A successful scan yields a matching index at or after the start. -/
theorem pyFindGo_imp_of_eq_some (s sub : List Char) :
    ∀ (fuel base idx : Nat), pyFindGo s sub fuel base = some idx →
      sub.isPrefixOf (s.drop idx) = true ∧ base ≤ idx := by
  intro fuel
  induction fuel with
  | zero => intro base idx h; exact absurd h (by simp [pyFindGo])
  | succ f ih =>
    intro base idx h
    cases hb : sub.isPrefixOf (s.drop base) with
    | true =>
      simp only [pyFindGo, hb, if_true] at h
      have : base = idx := by
        have := h
        simp at this
        exact this
      subst this
      exact ⟨hb, le_refl _⟩
    | false =>
      rw [show pyFindGo s sub (f + 1) base = pyFindGo s sub f (base + 1) by
        simp [pyFindGo, hb]] at h
      obtain ⟨h1, h2⟩ := ih (base + 1) idx h
      exact ⟨h1, by omega⟩

/-- A pattern that occurs nowhere is never found. -/
theorem pyFind_eq_none_of_not_occurs {c pat : List Char} (h : ¬ occursIn c pat) (i : Nat) :
    pyFind c pat i = none := by
  by_cases hi : i ≤ c.length
  · rw [pyFind, if_pos hi]
    apply pyFindGo_eq_none_of
    intro k h1 h2
    cases hx : pat.isPrefixOf (c.drop k) with
    | false => rfl
    | true => exact absurd ⟨k, List.mem_range.2 (by omega), hx⟩ h
  · rw [pyFind, if_neg hi]

/-- The empty pattern occurs in every list, so a pattern that does not
occur is nonempty. -/
theorem ne_nil_of_not_occurs {c pat : List Char} (h : ¬ occursIn c pat) : pat ≠ [] := by
  rintro rfl
  exact h ⟨0, List.mem_range.2 (by omega), by cases c <;> rfl⟩

/-- A nonempty optional string is truthy. -/
theorem truthy_some_of_ne_nil {A : List Char} (h : A ≠ []) : truthy (some A) = true := by
  cases A with
  | nil => exact absurd rfl h
  | cons a as => rfl

/-! The two behaviours of the slicing block. -/

/-- When some given marker does not occur, slicing returns the stripped
full content. -/
theorem sliceContent_eq_of_missing (c : List Char) (sm em : Option (List Char))
    (h : (∃ A, sm = some A ∧ ¬ occursIn c A) ∨ (∃ B, em = some B ∧ ¬ occursIn c B)) :
    sliceContent c sm em = stripChars c := by
  rcases h with ⟨A, hsm, hA⟩ | ⟨B, hem, hB⟩
  · subst hsm
    have htr : truthy (some A) = true := truthy_some_of_ne_nil (ne_nil_of_not_occurs hA)
    have hfind := pyFind_eq_none_of_not_occurs hA 0
    simp [sliceContent, htr, hfind]
  · subst hem
    have htr : truthy (some B) = true := truthy_some_of_ne_nil (ne_nil_of_not_occurs hB)
    rcases hsi : (if truthy sm then pyFind c (sm.getD []) 0 else some 0) with _ | si
    · simp [sliceContent, htr, hsi]
    · have hsile : si ≤ c.length := by
        by_cases htm : truthy sm = true
        · rw [if_pos htm] at hsi
          rw [pyFind, if_pos (Nat.zero_le _)] at hsi
          have hps := pyFindGo_imp_of_eq_some c (sm.getD []) _ 0 si hsi
          have hne : sm.getD [] ≠ [] := by
            cases sm with
            | none => simp [truthy] at htm
            | some s =>
              cases s with
              | nil => simp [truthy] at htm
              | cons a as => simp
          exact le_of_lt (lt_length_of_isPrefixOf hne hps.1)
        · rw [if_neg htm] at hsi
          injection hsi with hsi
          omega
      have hfind := pyFind_eq_none_of_not_occurs hB si
      simp [sliceContent, htr, hsi, hfind]

/-- When both markers are found, slicing returns the stripped span from
the first marker to the second. -/
theorem sliceContent_eq_of_found (c A B : List Char) (i j : Nat) (hA : A ≠ []) (hB : B ≠ [])
    (h1 : isFirstMatchFrom c A 0 i) (h2 : isFirstMatchFrom c B i j) :
    sliceContent c (some A) (some B) = stripChars ((c.take j).drop i) := by
  obtain ⟨-, hi_le, hA_pre, hA_min⟩ := h1
  obtain ⟨hij, hj_le, hB_pre, hB_min⟩ := h2
  have htA := truthy_some_of_ne_nil hA
  have htB := truthy_some_of_ne_nil hB
  have hfA : pyFind c A 0 = some i := by
    rw [pyFind, if_pos (Nat.zero_le _)]
    exact pyFindGo_eq_some_of c A _ 0 i hA_pre (Nat.zero_le _) (by omega) hA_min
  have hfB : pyFind c B i = some j := by
    rw [pyFind, if_pos hi_le]
    exact pyFindGo_eq_some_of c B _ i j hB_pre hij (by omega) hB_min
  simp [sliceContent, htA, htB, hfA, hfB]

/-! Claim theorems about slicing. -/

/-- Claim C1: when the processed content contains the given nonempty start
marker A and contains the given nonempty end marker B at or after the
first occurrence of A, both extraction operations return the substring of
the processed content from the first occurrence of A up to the first
occurrence of B at or after that index, trimmed of surrounding
whitespace. -/
theorem extract_content_markers_found :
    ∀ (out : List Char) (pages : List (List Char)) (cleaned : Bool) (A B : List Char)
      (i j ti tj : Nat), A ≠ [] → B ≠ [] →
      ((isFirstMatchFrom (processedMarkdown out cleaned) A 0 i →
        isFirstMatchFrom (processedMarkdown out cleaned) B i j →
        extract_markdown_content (Except.ok out) cleaned (some A) (some B) =
          PyValue.str (stripChars (((processedMarkdown out cleaned).take j).drop i))) ∧
       (isFirstMatchFrom (joinPages pages) A 0 ti →
        isFirstMatchFrom (joinPages pages) B ti tj →
        extract_text_content (Except.ok pages) (some A) (some B) =
          PyValue.str (stripChars (((joinPages pages).take tj).drop ti)))) := by
  intro out pages cleaned A B i j ti tj hA hB
  constructor
  · intro h1 h2
    show PyValue.str (sliceContent (processedMarkdown out cleaned) (some A) (some B)) = _
    rw [sliceContent_eq_of_found (processedMarkdown out cleaned) A B i j hA hB h1 h2]
  · intro h1 h2
    show PyValue.str (sliceContent (joinPages pages) (some A) (some B)) = _
    rw [sliceContent_eq_of_found (joinPages pages) A B ti tj hA hB h1 h2]

/-- Witness for claim C1 at concrete content. -/
theorem extract_content_markers_found_w :
    extract_markdown_content (Except.ok (String.toList "xAyBz")) false
        (some (String.toList "A")) (some (String.toList "B")) =
      PyValue.str (stripChars (((processedMarkdown (String.toList "xAyBz") false).take 3).drop 1)) ∧
    extract_text_content (Except.ok [String.toList "xA", String.toList "Bz"])
        (some (String.toList "A")) (some (String.toList "B")) =
      PyValue.str (stripChars (((joinPages [String.toList "xA", String.toList "Bz"]).take 4).drop 1)) := by
  have h := extract_content_markers_found (String.toList "xAyBz")
    [String.toList "xA", String.toList "Bz"] false (String.toList "A") (String.toList "B")
    1 3 1 4 (by decide) (by decide)
  exact ⟨h.1 (by decide) (by decide), h.2 (by decide) (by decide)⟩

/-- Claim C2: when some given marker does not occur in the content, both
extraction operations return the full content trimmed of surrounding
whitespace, with no exception raised. -/
theorem extract_content_marker_missing :
    ∀ (out : List Char) (pages : List (List Char)) (cleaned : Bool)
      (sm em : Option (List Char)),
      ((((∃ A, sm = some A ∧ ¬ occursIn (processedMarkdown out cleaned) A) ∨
         (∃ B, em = some B ∧ ¬ occursIn (processedMarkdown out cleaned) B)) →
        extract_markdown_content (Except.ok out) cleaned sm em =
          PyValue.str (stripChars (processedMarkdown out cleaned))) ∧
       (((∃ A, sm = some A ∧ ¬ occursIn (joinPages pages) A) ∨
         (∃ B, em = some B ∧ ¬ occursIn (joinPages pages) B)) →
        extract_text_content (Except.ok pages) sm em =
          PyValue.str (stripChars (joinPages pages)))) := by
  intro out pages cleaned sm em
  constructor
  · intro h
    show PyValue.str (sliceContent (processedMarkdown out cleaned) sm em) = _
    rw [sliceContent_eq_of_missing (processedMarkdown out cleaned) sm em h]
  · intro h
    show PyValue.str (sliceContent (joinPages pages) sm em) = _
    rw [sliceContent_eq_of_missing (joinPages pages) sm em h]

/-- Witness for claim C2 at concrete content with an absent marker. -/
theorem extract_content_marker_missing_w :
    extract_markdown_content (Except.ok (String.toList " ab ")) false
        (some (String.toList "Q")) none =
      PyValue.str (stripChars (processedMarkdown (String.toList " ab ") false)) ∧
    extract_text_content (Except.ok [String.toList " ab "])
        none (some (String.toList "Q")) =
      PyValue.str (stripChars (joinPages [String.toList " ab "])) := by
  have h := extract_content_marker_missing (String.toList " ab ") [String.toList " ab "]
    false (some (String.toList "Q")) none
  have h2 := extract_content_marker_missing (String.toList " ab ") [String.toList " ab "]
    false none (some (String.toList "Q"))
  exact ⟨h.1 (Or.inl ⟨String.toList "Q", rfl, by decide⟩),
         h2.2 (Or.inr ⟨String.toList "Q", rfl, by decide⟩)⟩

/-- Claim C3: an internal markdown extraction failure yields a descriptive
string return value, while an internal plain-text extraction failure
yields the boolean sentinel false; neither raises. -/
theorem extraction_failure_conventions :
    (∀ (msg : List Char) (cleaned : Bool) (sm em : Option (List Char)),
      extract_markdown_content (Except.error msg) cleaned sm em =
        PyValue.str (errPrefixMd ++ msg)) ∧
    (∀ (msg : List Char) (sm em : Option (List Char)),
      extract_text_content (Except.error msg) sm em = PyValue.bool false) := by
  exact ⟨fun _ _ _ _ => rfl, fun _ _ _ => rfl⟩

/-- Claim C10: a call of save_markdown_to_file with the content argument
omitted, whose internal markdown extraction fails, still writes the file
with the error-description string as content and logs success; the caller
receives no failure signal. -/
theorem save_markdown_error_content :
    ∀ (msg : List Char) (cleaned : Bool) (sm em : Option (List Char)),
      save_markdown_to_file (Except.error msg) true none cleaned sm em =
        SaveOutcome.savedLog (errPrefixMd ++ msg) := by
  intro msg cleaned sm em
  rfl

/-- Claim C4: construction fails with the not-found error exactly when the
path does not exist, and otherwise succeeds storing only the path, with
the buffer cache empty and no read performed. -/
theorem construct_validation :
    ∀ (fs : FileSystem) (p : List Char),
      (fs.pathExists p = false →
        CapPDFHandler.init fs p = Except.error PyError.fileNotFound) ∧
      (fs.pathExists p = true →
        CapPDFHandler.init fs p = Except.ok ⟨p, none⟩) := by
  intro fs p
  constructor
  · intro h; simp [CapPDFHandler.init, h]
  · intro h; simp [CapPDFHandler.init, h]

/-- Witness for claim C4 at a concrete file system. -/
theorem construct_validation_w :
    CapPDFHandler.init ⟨fun q => decide (q = String.toList "a.pdf"), fun _ => []⟩
        (String.toList "a.pdf") =
      Except.ok ⟨String.toList "a.pdf", none⟩ ∧
    CapPDFHandler.init ⟨fun q => decide (q = String.toList "a.pdf"), fun _ => []⟩
        (String.toList "b.pdf") =
      Except.error PyError.fileNotFound := by
  exact ⟨(construct_validation _ _).2 (by decide), (construct_validation _ _).1 (by decide)⟩

/-- Claim C8: validate_paths rejects a missing source with the not-found
error, a source whose lowercased extension is not .pdf with the
value error, a valid source with a missing or non-directory destination
with the not-a-directory error, and accepts an existing .pdf source with
an existing destination directory. -/
theorem validate_paths_spec :
    ∀ source destination : PathInfo,
      ((source.present = false ∨ source.isFile = false) →
        validate_paths source destination = Except.error PyError.fileNotFound) ∧
      (source.present = true → source.isFile = true →
        source.suffix.map Char.toLower ≠ pdfExt →
        validate_paths source destination = Except.error PyError.valueError) ∧
      (source.present = true → source.isFile = true →
        source.suffix.map Char.toLower = pdfExt →
        (destination.present = false ∨ destination.isDir = false) →
        validate_paths source destination = Except.error PyError.notADirectory) ∧
      (source.present = true → source.isFile = true →
        source.suffix.map Char.toLower = pdfExt →
        destination.present = true → destination.isDir = true →
        validate_paths source destination = Except.ok ()) := by
  intro s d
  refine ⟨?_, ?_, ?_, ?_⟩
  · rintro (h | h) <;> simp [validate_paths, h]
  · intro h1 h2 h3
    simp [validate_paths, h1, h2, h3]
  · rintro h1 h2 h3 (h | h) <;> simp [validate_paths, h1, h2, h3, h]
  · intro h1 h2 h3 h4 h5
    simp [validate_paths, h1, h2, h3, h4, h5]

/-- Witness for claim C8 at concrete sources and destinations. -/
theorem validate_paths_spec_w :
    validate_paths ⟨false, false, false, String.toList ".pdf"⟩ ⟨true, false, true, []⟩ =
      Except.error PyError.fileNotFound ∧
    validate_paths ⟨true, true, false, String.toList ".txt"⟩ ⟨true, false, true, []⟩ =
      Except.error PyError.valueError ∧
    validate_paths ⟨true, true, false, String.toList ".pdf"⟩ ⟨false, false, false, []⟩ =
      Except.error PyError.notADirectory ∧
    validate_paths ⟨true, true, false, String.toList ".pdf"⟩ ⟨true, false, true, []⟩ =
      Except.ok () := by
  refine ⟨(validate_paths_spec _ _).1 (Or.inl rfl),
          (validate_paths_spec _ _).2.1 rfl rfl (by decide),
          (validate_paths_spec _ _).2.2.1 rfl rfl (by decide) (Or.inl rfl),
          (validate_paths_spec _ _).2.2.2 rfl rfl (by decide) rfl rfl⟩

/-- Iterating the buffer accessor on a filled cache never reads the file. -/
theorem readCountN_cached (fs : FileSystem) :
    ∀ (n : Nat) (path : List Char) (b : MemBuffer),
      (readCountN fs ⟨path, some b⟩ n).2 = 0 := by
  intro n
  induction n with
  | zero => intro path b; rfl
  | succ m ih =>
    intro path b
    simp only [readCountN, get_memory_file]
    simpa using ih path ⟨b.data, 0⟩

/-- Claim C9: every call of get_memory_file returns the buffer rewound to
offset zero; the first call on an empty cache reads the file and fills
the cache; later calls return the cached bytes without reading; across
any number of calls the file is read at most once. -/
theorem memory_file_cache_spec :
    ∀ (fs : FileSystem) (h : CapPDFHandler),
      ((get_memory_file fs h).2.1.pos = 0) ∧
      (h.memory_file = none →
        (get_memory_file fs h).2.1.data = fs.readBytes h.pdf_path ∧
        (get_memory_file fs h).2.2 = true ∧
        (get_memory_file fs h).1 = ⟨h.pdf_path, some (get_memory_file fs h).2.1⟩) ∧
      (∀ b, h.memory_file = some b →
        (get_memory_file fs h).2.1 = ⟨b.data, 0⟩ ∧
        (get_memory_file fs h).2.2 = false ∧
        (get_memory_file fs h).1 = ⟨h.pdf_path, some ⟨b.data, 0⟩⟩) ∧
      (∀ n, (readCountN fs h n).2 ≤ 1) := by
  intro fs h
  obtain ⟨path, mf⟩ := h
  refine ⟨?_, ?_, ?_, ?_⟩
  · cases mf <;> simp [get_memory_file]
  · intro hm
    cases hm
    simp [get_memory_file]
  · intro b hm
    cases hm
    simp [get_memory_file]
  · intro n
    cases mf with
    | none =>
      cases n with
      | zero => simp [readCountN]
      | succ m =>
        simp only [readCountN, get_memory_file]
        simpa using Nat.le_of_eq (readCountN_cached fs m path ⟨fs.readBytes path, 0⟩)
    | some b =>
      rw [readCountN_cached fs n path b]
      omega

/-- Witness for claim C9 at a concrete file system and handler. -/
theorem memory_file_cache_spec_w :
    (get_memory_file ⟨fun _ => true, fun _ => [7, 8]⟩ ⟨String.toList "f.pdf", none⟩).2.1.data =
      [7, 8] ∧
    (get_memory_file ⟨fun _ => true, fun _ => [7, 8]⟩ ⟨String.toList "f.pdf", none⟩).2.2 = true ∧
    (get_memory_file ⟨fun _ => true, fun _ => [7, 8]⟩
        ⟨String.toList "f.pdf", some ⟨[7, 8], 3⟩⟩).2.2 = false ∧
    (readCountN ⟨fun _ => true, fun _ => [7, 8]⟩ ⟨String.toList "f.pdf", none⟩ 5).2 ≤ 1 := by
  have h := memory_file_cache_spec ⟨fun _ => true, fun _ => [7, 8]⟩ ⟨String.toList "f.pdf", none⟩
  have h2 := memory_file_cache_spec ⟨fun _ => true, fun _ => [7, 8]⟩
    ⟨String.toList "f.pdf", some ⟨[7, 8], 3⟩⟩
  exact ⟨(h.2.1 rfl).1, (h.2.1 rfl).2.1, (h2.2.2.1 ⟨[7, 8], 3⟩ rfl).2.1, h.2.2.2 5⟩

/-! Soundness of the lazy matchers: a reported match really is the text at
the reported position. -/

/-- The inner-group scan returns a segment that, followed by the closing
delimiter, is a prefix of the scanned text. -/
theorem findInner_sound (close : List Char) :
    ∀ (r inn : List Char), findInner close r = some inn →
      (inn ++ close).isPrefixOf r = true := by
  intro r
  induction r with
  | nil =>
    intro inn h
    simp only [findInner] at h
    split at h
    · injection h with h
      subst h
      simpa using (by assumption : close.isPrefixOf ([] : List Char) = true)
    · exact absurd h (by simp)
  | cons c cs ih =>
    intro inn h
    simp only [findInner] at h
    split at h
    · injection h with h
      subst h
      simpa using (by assumption : close.isPrefixOf (c :: cs) = true)
    · split at h
      · exact absurd h (by simp)
      · cases hf : findInner close cs with
        | none => rw [hf] at h; exact absurd h (by simp)
        | some inn0 =>
          rw [hf] at h
          simp at h
          subst h
          have hI := ih inn0 hf
          show ((c :: inn0) ++ close).isPrefixOf (c :: cs) = true
          simpa [List.isPrefixOf] using hI

/-- The style matcher returns a position inside the string at which the
opening delimiter, the group and the closing delimiter occur verbatim. -/
theorem findStyleMatch_sound (op cl : List Char) (hop : op ≠ []) :
    ∀ (l : List Char) (i : Nat) (inn : List Char), findStyleMatch op cl l = some (i, inn) →
      i ≤ l.length ∧ (op ++ inn ++ cl).isPrefixOf (l.drop i) = true := by
  intro l
  induction l with
  | nil =>
    intro i inn h
    simp only [findStyleMatch] at h
    rw [isPrefixOf_nil_eq_false hop] at h
    exact absurd h (by simp)
  | cons c cs ih =>
    intro i inn h
    simp only [findStyleMatch] at h
    by_cases hp : op.isPrefixOf (c :: cs) = true
    · rw [if_pos hp] at h
      cases hf : findInner cl ((c :: cs).drop op.length) with
      | some inn0 =>
        rw [hf] at h
        simp at h
        obtain ⟨rfl, rfl⟩ := h
        refine ⟨Nat.zero_le _, ?_⟩
        rw [List.drop_zero]
        have hI := findInner_sound cl _ inn0 hf
        have := isPrefixOf_append_combine hp hI
        simpa [List.append_assoc] using this
      | none =>
        rw [hf] at h
        simp only [Option.map_none'] at h
        cases hr : findStyleMatch op cl cs with
        | none => rw [hr] at h; exact absurd h (by simp)
        | some p =>
          rw [hr] at h
          simp at h
          obtain ⟨rfl, rfl⟩ := h
          obtain ⟨hle, hpre⟩ := ih p.1 p.2 hr
          exact ⟨by simpa using Nat.succ_le_succ hle, by simpa [List.drop_succ_cons] using hpre⟩
    · rw [if_neg hp] at h
      cases hr : findStyleMatch op cl cs with
      | none => rw [hr] at h; exact absurd h (by simp)
      | some p =>
        rw [hr] at h
        simp at h
        obtain ⟨rfl, rfl⟩ := h
        obtain ⟨hle, hpre⟩ := ih p.1 p.2 hr
        exact ⟨by simpa using Nat.succ_le_succ hle, by simpa [List.drop_succ_cons] using hpre⟩

/-- The substitution pass for a style pattern whose replacement template
reproduces the match is the identity, for every fuel. -/
theorem reSubStyleGo_eq_self (op cl : List Char) (hop : op ≠ []) :
    ∀ (fuel : Nat) (l : List Char), reSubStyleGo op cl fuel l = l := by
  intro fuel
  induction fuel with
  | zero => intro l; rfl
  | succ f ih =>
    intro l
    simp only [reSubStyleGo]
    cases hm : findStyleMatch op cl l with
    | none => rfl
    | some p =>
      obtain ⟨i, inn⟩ := p
      obtain ⟨hle, hpre⟩ := findStyleMatch_sound op cl hop l i inn hm
      have hdec := eq_append_drop_of_isPrefixOf hpre
      have harith : i + (op ++ inn ++ cl).length = i + (op.length + inn.length + cl.length) := by
        simp [List.length_append]
        omega
      show l.take i ++ op ++ inn ++ cl ++
          reSubStyleGo op cl f (l.drop (i + (op.length + inn.length + cl.length))) = l
      rw [ih]
      conv_rhs => rw [← List.take_append_drop i l, hdec, List.drop_drop, harith]
      simp [List.append_assoc]

/-- Claim C7: each of the three style substitutions of the formatting pass
is the identity on every input, so only the heading promotion can alter
content. -/
theorem style_substitution_identity :
    ∀ content : List Char,
      reSubStyle boldMark boldMark content = content ∧
      reSubStyle underMark underMark content = content ∧
      reSubStyle starMark starMark content = content ∧
      styleSubPass content = content ∧
      formatMarkdownContent content = headingPass content := by
  intro content
  have hb := reSubStyleGo_eq_self boldMark boldMark (by decide)
  have hu := reSubStyleGo_eq_self underMark underMark (by decide)
  have hs := reSubStyleGo_eq_self starMark starMark (by decide)
  refine ⟨hb _ _, hu _ _, hs _ _, ?_, ?_⟩
  · simp [styleSubPass, reSubStyle, hb, hu, hs]
  · simp [formatMarkdownContent, styleSubPass, reSubStyle, hb, hu, hs]

/-! Helper lemmas about takeWhile and dropWhile. -/

/-- Dropping past a block whose elements all satisfy the predicate. -/
theorem dropWhile_append_all (p : Char → Bool) (w l : List Char)
    (h : ∀ a ∈ w, p a = true) : (w ++ l).dropWhile p = l.dropWhile p := by
  induction w with
  | nil => rfl
  | cons a as ih =>
    have ha := h a (List.mem_cons_self a as)
    simp only [List.cons_append, List.dropWhile_cons, ha, if_true]
    exact ih (fun x hx => h x (List.mem_cons_of_mem a hx))

/-- Dropping stops at a head that fails the predicate. -/
theorem dropWhile_cons_neg (p : Char → Bool) (c : Char) (cs : List Char)
    (h : p c = false) : (c :: cs).dropWhile p = c :: cs := by
  simp [List.dropWhile_cons, h]

/-- Taking through a block whose elements all satisfy the predicate. -/
theorem takeWhile_append_all (p : Char → Bool) (w l : List Char)
    (h : ∀ a ∈ w, p a = true) : (w ++ l).takeWhile p = w ++ l.takeWhile p := by
  induction w with
  | nil => rfl
  | cons a as ih =>
    have ha := h a (List.mem_cons_self a as)
    simp only [List.cons_append, List.takeWhile_cons, ha, if_true]
    rw [ih (fun x hx => h x (List.mem_cons_of_mem a hx))]

/-- Taking stops at a head that fails the predicate. -/
theorem takeWhile_cons_neg (p : Char → Bool) (c : Char) (cs : List Char)
    (h : p c = false) : (c :: cs).takeWhile p = [] := by
  simp [List.takeWhile_cons, h]

/-- When the drop leaves something, appending more does not change the
dropped block. -/
theorem dropWhile_append_ne_nil (p : Char → Bool) (w l : List Char)
    (h : w.dropWhile p ≠ []) : (w ++ l).dropWhile p = w.dropWhile p ++ l := by
  induction w with
  | nil => exact absurd rfl h
  | cons a as ih =>
    cases ha : p a with
    | true =>
      simp only [List.dropWhile_cons, ha, if_true] at h ⊢
      simp only [List.cons_append, List.dropWhile_cons, ha, if_true]
      exact ih h
    | false =>
      simp [List.dropWhile_cons, ha]

/-- Elements of the taken block satisfy the predicate. -/
theorem pred_of_mem_takeWhile (p : Char → Bool) :
    ∀ (l : List Char) (a : Char), a ∈ l.takeWhile p → p a = true := by
  intro l
  induction l with
  | nil => intro a h; simp [List.takeWhile] at h
  | cons c cs ih =>
    intro a h
    cases hc : p c with
    | false => simp [List.takeWhile_cons, hc] at h
    | true =>
      simp only [List.takeWhile_cons, hc, if_true, List.mem_cons] at h
      rcases h with rfl | h
      · exact hc
      · exact ih a h

/-- Elements surviving the drop are elements of the original list. -/
theorem mem_of_mem_dropWhile (p : Char → Bool) :
    ∀ (l : List Char) (a : Char), a ∈ l.dropWhile p → a ∈ l := by
  intro l
  induction l with
  | nil => intro a h; simp [List.dropWhile] at h
  | cons c cs ih =>
    intro a h
    cases hc : p c with
    | false =>
      rw [dropWhile_cons_neg p c cs hc] at h
      exact h
    | true =>
      simp only [List.dropWhile_cons, hc, if_true] at h
      exact List.mem_cons_of_mem c (ih a h)

/-- Dropping with pointwise equal predicates agrees. -/
theorem dropWhile_congr_mem (p q : Char → Bool) :
    ∀ l : List Char, (∀ a ∈ l, p a = q a) → l.dropWhile p = l.dropWhile q := by
  intro l
  induction l with
  | nil => intro _; rfl
  | cons c cs ih =>
    intro h
    have hc := h c (List.mem_cons_self c cs)
    cases hq : q c with
    | true =>
      rw [List.dropWhile_cons, List.dropWhile_cons, hq, hc.trans hq]
      simp only [if_true]
      exact ih (fun a ha => h a (List.mem_cons_of_mem c ha))
    | false =>
      rw [List.dropWhile_cons, List.dropWhile_cons, hq, hc.trans hq]
      simp

/-- A list whose elements all satisfy the predicate drops to nothing. -/
theorem dropWhile_eq_nil_of_all (p : Char → Bool) :
    ∀ l : List Char, (∀ a ∈ l, p a = true) → l.dropWhile p = [] := by
  intro l
  induction l with
  | nil => intro _; rfl
  | cons c cs ih =>
    intro h
    simp only [List.dropWhile_cons, h c (List.mem_cons_self c cs), if_true]
    exact ih (fun a ha => h a (List.mem_cons_of_mem c ha))

/-- A list that drops to nothing satisfies the predicate everywhere. -/
theorem all_of_dropWhile_eq_nil (p : Char → Bool) :
    ∀ l : List Char, l.dropWhile p = [] → ∀ a ∈ l, p a = true := by
  intro l
  induction l with
  | nil => intro _ a ha; simp at ha
  | cons c cs ih =>
    intro h a ha
    cases hc : p c with
    | false => rw [dropWhile_cons_neg p c cs hc] at h; exact absurd h (by simp)
    | true =>
      simp only [List.dropWhile_cons, hc, if_true] at h
      rcases List.mem_cons.1 ha with rfl | ha
      · exact hc
      · exact ih h a ha

/-! Characterisation of the whole-line bold guard. -/

/-- A line built from whitespace, a bold span with nonempty asterisk-free
content, and whitespace passes the guard. -/
theorem matchesBoldLine_of_decomp (w1 mid w2 : List Char)
    (h1 : ∀ c ∈ w1, pyIsSpace c = true) (h2 : ∀ c ∈ w2, pyIsSpace c = true)
    (hne : mid ≠ []) (hstar : ∀ c ∈ mid, c ≠ '*') :
    matchesBoldLine (w1 ++ boldMark ++ mid ++ boldMark ++ w2) = true := by
  have hmidp : ∀ c ∈ mid, (c != '*') = true := by
    intro c hc
    simp only [bne_iff_ne, ne_eq]
    exact hstar c hc
  unfold matchesBoldLine
  rw [show w1 ++ boldMark ++ mid ++ boldMark ++ w2 =
      w1 ++ ('*' :: '*' :: (mid ++ ('*' :: '*' :: w2))) from by simp [boldMark]]
  rw [dropWhile_append_all pyIsSpace w1 _ h1]
  rw [dropWhile_cons_neg pyIsSpace '*' _ (by decide)]
  show boldHead ('*' :: '*' :: (mid ++ ('*' :: '*' :: w2))) = true
  simp only [boldHead, boldMid]
  rw [takeWhile_append_all _ mid _ hmidp]
  rw [takeWhile_cons_neg _ '*' _ (by decide)]
  rw [dropWhile_append_all _ mid _ hmidp]
  rw [dropWhile_cons_neg _ '*' _ (by decide)]
  simp [boldTail, List.all_eq_true]
  exact ⟨hne, h2⟩

/-- A line passing the guard decomposes into whitespace, a bold span with
nonempty asterisk-free content, and whitespace. -/
theorem matchesBoldLine_decomp (l : List Char) (h : matchesBoldLine l = true) :
    ∃ w1 mid w2, l = w1 ++ boldMark ++ mid ++ boldMark ++ w2 ∧
      (∀ c ∈ w1, pyIsSpace c = true) ∧ (∀ c ∈ w2, pyIsSpace c = true) ∧
      mid ≠ [] ∧ (∀ c ∈ mid, c ≠ '*') := by
  unfold matchesBoldLine at h
  have hsplit : l = l.takeWhile pyIsSpace ++ l.dropWhile pyIsSpace :=
    (List.takeWhile_append_dropWhile pyIsSpace l).symm
  cases hd : l.dropWhile pyIsSpace with
  | nil => rw [hd] at h; exact absurd h (by simp [boldHead])
  | cons c1 d1 =>
    cases d1 with
    | nil => rw [hd] at h; exact absurd h (by simp [boldHead])
    | cons c2 rest =>
      rw [hd] at h
      simp only [boldHead, Bool.and_eq_true, decide_eq_true_eq] at h
      obtain ⟨⟨hc1, hc2⟩, hmid⟩ := h
      subst hc1
      subst hc2
      simp only [boldMid, Bool.and_eq_true, Bool.not_eq_true'] at hmid
      obtain ⟨hmne, htail⟩ := hmid
      cases hr2 : rest.dropWhile (fun c => c != '*') with
      | nil => rw [hr2] at htail; exact absurd htail (by simp [boldTail])
      | cons e1 r1 =>
        cases r1 with
        | nil => rw [hr2] at htail; exact absurd htail (by simp [boldTail])
        | cons e2 w2 =>
          rw [hr2] at htail
          simp only [boldTail, Bool.and_eq_true, decide_eq_true_eq] at htail
          obtain ⟨⟨he1, he2⟩, hall⟩ := htail
          subst he1
          subst he2
          refine ⟨l.takeWhile pyIsSpace, rest.takeWhile (fun c => c != '*'), w2, ?_, ?_, ?_, ?_, ?_⟩
          · have hrest : rest = rest.takeWhile (fun c => c != '*') ++ ('*' :: '*' :: w2) := by
              conv_lhs => rw [← List.takeWhile_append_dropWhile (fun c => c != '*') rest]
              rw [hr2]
            calc l = l.takeWhile pyIsSpace ++ l.dropWhile pyIsSpace := hsplit
              _ = l.takeWhile pyIsSpace ++ ('*' :: '*' :: rest) := by rw [hd]
              _ = l.takeWhile pyIsSpace ++
                  ('*' :: '*' :: (rest.takeWhile (fun c => c != '*') ++ ('*' :: '*' :: w2))) := by
                    rw [← hrest]
              _ = l.takeWhile pyIsSpace ++ boldMark ++ rest.takeWhile (fun c => c != '*') ++
                  boldMark ++ w2 := by simp [boldMark]
          · exact fun c hc => pred_of_mem_takeWhile pyIsSpace l c hc
          · exact List.all_eq_true.1 hall
          · intro he
            rw [he] at hmne
            exact absurd hmne (by simp)
          · intro c hc
            have := pred_of_mem_takeWhile _ rest c hc
            simpa using this

/-- The strip of space and asterisk applied to a space-padded bold line
with asterisk-free content keeps only the space-trimmed content. -/
theorem stripSet_decomp (w1 mid w2 : List Char)
    (h1 : ∀ c ∈ w1, c = ' ') (h2 : ∀ c ∈ w2, c = ' ')
    (hstar : ∀ c ∈ mid, c ≠ '*') :
    stripSet (w1 ++ boldMark ++ mid ++ boldMark ++ w2) = stripSpaces mid := by
  have h1s : ∀ c ∈ w1, spaceStar c = true := by
    intro c hc; simp [spaceStar, h1 c hc]
  have h2s : ∀ c ∈ w2, spaceStar c = true := by
    intro c hc; simp [spaceStar, h2 c hc]
  have hcongr : ∀ x : List Char, (∀ c ∈ x, c ≠ '*') →
      x.dropWhile spaceStar = x.dropWhile isSpaceChar := by
    intro x hx
    apply dropWhile_congr_mem
    intro a ha
    have := hx a ha
    simp [spaceStar, isSpaceChar, this]
  unfold stripSet stripSpaces
  rw [show w1 ++ boldMark ++ mid ++ boldMark ++ w2 =
      w1 ++ ('*' :: '*' :: (mid ++ ('*' :: '*' :: w2))) from by simp [boldMark]]
  rw [dropWhile_append_all spaceStar w1 _ h1s]
  rw [show ('*' :: '*' :: (mid ++ ('*' :: '*' :: w2))).dropWhile spaceStar =
      (mid ++ ('*' :: '*' :: w2)).dropWhile spaceStar from by
    simp [List.dropWhile_cons, spaceStar]]
  cases hcase : mid.dropWhile isSpaceChar with
  | nil =>
    have hmid_all : ∀ c ∈ mid, spaceStar c = true := by
      intro c hc
      have := all_of_dropWhile_eq_nil isSpaceChar mid hcase c hc
      simp [isSpaceChar] at this
      simp [spaceStar, this]
    rw [dropWhile_append_all spaceStar mid _ hmid_all]
    rw [show ('*' :: '*' :: w2).dropWhile spaceStar = w2.dropWhile spaceStar from by
      simp [List.dropWhile_cons, spaceStar]]
    rw [dropWhile_eq_nil_of_all spaceStar w2 h2s]
    rfl
  | cons c t =>
    have hds : mid.dropWhile spaceStar = c :: t := by
      rw [hcongr mid hstar, hcase]
    rw [dropWhile_append_ne_nil spaceStar mid _ (by rw [hds]; simp)]
    rw [hds]
    rw [show (c :: t) ++ ('*' :: '*' :: w2) = (c :: t) ++ (['*', '*'] ++ w2) from by simp]
    rw [List.reverse_append, List.reverse_append]
    rw [List.append_assoc]
    rw [dropWhile_append_all spaceStar w2.reverse _
      (fun a ha => h2s a (List.mem_reverse.1 ha))]
    rw [show (['*', '*'] : List Char).reverse ++ (c :: t).reverse =
        '*' :: '*' :: (c :: t).reverse from by simp]
    rw [show ('*' :: '*' :: (c :: t).reverse).dropWhile spaceStar =
        (c :: t).reverse.dropWhile spaceStar from by
      simp [List.dropWhile_cons, spaceStar]]
    have hmem : ∀ a ∈ (c :: t).reverse, a ≠ '*' := by
      intro a ha
      have ha2 : a ∈ mid.dropWhile spaceStar := by
        rw [hds]; exact List.mem_reverse.1 ha
      exact hstar a (mem_of_mem_dropWhile spaceStar mid a ha2)
    have : (c :: t).reverse.dropWhile spaceStar = (c :: t).reverse.dropWhile isSpaceChar :=
      hcongr _ hmem
    rw [this, ← hcase]

/-- Counterexample to claim C5: a bold-only line padded with a tab matches
the whitespace-tolerant guard, but the strip of spaces and asterisks does
not remove the tab, so the result keeps the tab and the opening bold
marker instead of becoming the claimed clean heading. -/
theorem heading_promotion_cx :
    formatMarkdownContent (String.toList "\t**Hi**") = String.toList "## \t**Hi" ∧
    (formatMarkdownContent (String.toList "\t**Hi**") == String.toList "## Hi") = false := by
  constructor
  · decide
  · decide

/-- Claim C5 as amended: a line that is a bold span with nonempty
asterisk-free content, padded by space characters only, is replaced by the
heading prefix followed by the space-trimmed content; a line that is not a
whitespace-padded bold span is left unchanged; and the formatting pass is
exactly this promotion applied line by line. -/
theorem heading_promotion_amended :
    (∀ w1 mid w2 : List Char, (∀ c ∈ w1, c = ' ') → (∀ c ∈ w2, c = ' ') →
      mid ≠ [] → (∀ c ∈ mid, c ≠ '*') →
      promoteLine (w1 ++ boldMark ++ mid ++ boldMark ++ w2) =
        headingMark ++ stripSpaces mid) ∧
    (∀ l : List Char,
      (¬ ∃ w1 mid w2, l = w1 ++ boldMark ++ mid ++ boldMark ++ w2 ∧
        (∀ c ∈ w1, pyIsSpace c = true) ∧ (∀ c ∈ w2, pyIsSpace c = true) ∧
        mid ≠ [] ∧ (∀ c ∈ mid, c ≠ '*')) →
      promoteLine l = l) ∧
    (∀ content : List Char,
      formatMarkdownContent content =
        List.intercalate ['\n'] ((splitNl content).map promoteLine)) := by
  refine ⟨?_, ?_, ?_⟩
  · intro w1 mid w2 h1 h2 hne hstar
    have h1w : ∀ c ∈ w1, pyIsSpace c = true := by
      intro c hc; rw [h1 c hc]; decide
    have h2w : ∀ c ∈ w2, pyIsSpace c = true := by
      intro c hc; rw [h2 c hc]; decide
    rw [promoteLine, if_pos (matchesBoldLine_of_decomp w1 mid w2 h1w h2w hne hstar)]
    rw [stripSet_decomp w1 mid w2 h1 h2 hstar]
  · intro l hno
    cases hb : matchesBoldLine l with
    | false => simp [promoteLine, hb]
    | true => exact absurd (matchesBoldLine_decomp l hb) hno
  · intro content
    have h := style_substitution_identity content
    rw [h.2.2.2.2]
    rfl

/-- Witness for the amended claim C5 at a concrete line. -/
theorem heading_promotion_amended_w :
    promoteLine (String.toList " " ++ boldMark ++ String.toList "Head" ++ boldMark ++ []) =
      headingMark ++ stripSpaces (String.toList "Head") := by
  exact heading_promotion_amended.1 (String.toList " ") (String.toList "Head") []
    (by decide) (by decide) (by decide) (by decide)

/-! Image removal: soundness and the length bound. -/

/-- The image matcher returns a position inside the string where the full
image-reference pattern occurs verbatim. -/
theorem findImageMatch_sound :
    ∀ (l : List Char) (i : Nat) (alt url : List Char),
      findImageMatch l = some (i, alt, url) →
      i ≤ l.length ∧
      (bangBracket ++ alt ++ closeAlt ++ url ++ closeUrl).isPrefixOf (l.drop i) = true := by
  intro l
  induction l with
  | nil => intro i alt url h; exact absurd h (by simp [findImageMatch])
  | cons c cs ih =>
    intro i alt url h
    simp only [findImageMatch] at h
    have hrec : (findImageMatch cs).map (fun p => (p.1 + 1, p.2)) = some (i, alt, url) →
        i ≤ (c :: cs).length ∧
        (bangBracket ++ alt ++ closeAlt ++ url ++ closeUrl).isPrefixOf
          ((c :: cs).drop i) = true := by
      intro hm
      cases hr : findImageMatch cs with
      | none => rw [hr] at hm; exact absurd hm (by simp)
      | some p =>
        obtain ⟨i0, alt0, url0⟩ := p
        rw [hr] at hm
        simp at hm
        obtain ⟨rfl, rfl, rfl⟩ := hm
        obtain ⟨hle, hpre⟩ := ih i0 alt0 url0 hr
        exact ⟨by simpa using Nat.succ_le_succ hle, by simpa [List.drop_succ_cons] using hpre⟩
    by_cases hp : bangBracket.isPrefixOf (c :: cs) = true
    · rw [if_pos hp] at h
      cases hf : findInner closeAlt ((c :: cs).drop 2) with
      | some alt0 =>
        rw [hf] at h
        simp only [] at h
        cases hg : findInner closeUrl ((c :: cs).drop (2 + alt0.length + 2)) with
        | some url0 =>
          rw [hg] at h
          simp at h
          obtain ⟨rfl, rfl, rfl⟩ := h
          refine ⟨Nat.zero_le _, ?_⟩
          rw [List.drop_zero]
          have h1 := findInner_sound closeAlt _ alt0 hf
          have h2 := findInner_sound closeUrl _ url0 hg
          have hq : (bangBracket ++ (alt0 ++ closeAlt)).isPrefixOf (c :: cs) = true :=
            isPrefixOf_append_combine hp h1
          have hlen : (bangBracket ++ (alt0 ++ closeAlt)).length = 2 + alt0.length + 2 := by
            simp [bangBracket, closeAlt, List.length_append]
            omega
          have h2a : (url0 ++ closeUrl).isPrefixOf
              ((c :: cs).drop (bangBracket ++ (alt0 ++ closeAlt)).length) = true := by
            rw [hlen]; exact h2
          have := isPrefixOf_append_combine hq h2a
          simpa [List.append_assoc] using this
        | none =>
          rw [hg] at h
          simp only [] at h
          exact hrec h
      | none =>
        rw [hf] at h
        simp only [] at h
        exact hrec h
    · rw [if_neg hp] at h
      simp only [] at h
      exact hrec h

/-- The removal pass never lengthens the string. -/
theorem removeImagesGo_length_le :
    ∀ (fuel : Nat) (l : List Char), (removeImagesGo fuel l).length ≤ l.length := by
  intro fuel
  induction fuel with
  | zero => intro l; exact le_refl _
  | succ f ih =>
    intro l
    simp only [removeImagesGo]
    cases hm : findImageMatch l with
    | none => exact le_refl _
    | some p =>
      obtain ⟨i, alt, url⟩ := p
      show (l.take i ++
        removeImagesGo f (l.drop (i + (2 + alt.length + 2 + url.length + 1)))).length ≤ l.length
      rw [List.length_append, List.length_take]
      have h1 := ih (l.drop (i + (2 + alt.length + 2 + url.length + 1)))
      rw [List.length_drop] at h1
      omega

/-- When the content contains an image reference, the cleaning pass
removes at least one match, which is at least five characters long. -/
theorem removeImages_shrink (l : List Char) (h : (findImageMatch l).isSome = true) :
    (removeImages l).length + 5 ≤ l.length := by
  rw [removeImages]
  cases hm : findImageMatch l with
  | none => rw [hm] at h; exact absurd h (by simp)
  | some p =>
    obtain ⟨i, alt, url⟩ := p
    obtain ⟨hle, hpre⟩ := findImageMatch_sound l i alt url hm
    have hplen : (bangBracket ++ alt ++ closeAlt ++ url ++ closeUrl).length =
        alt.length + url.length + 5 := by
      simp [bangBracket, closeAlt, closeUrl, List.length_append]
      omega
    have hfit := length_le_of_isPrefixOf hpre
    rw [hplen, List.length_drop] at hfit
    simp only [removeImagesGo]
    rw [hm]
    show (l.take i ++
        removeImagesGo l.length
          (l.drop (i + (2 + alt.length + 2 + url.length + 1)))).length + 5 ≤ l.length
    rw [List.length_append, List.length_take]
    have hrec := removeImagesGo_length_le l.length
      (l.drop (i + (2 + alt.length + 2 + url.length + 1)))
    rw [List.length_drop] at hrec
    omega

/-- Counterexample to claim C6: removing the single matched image
reference splices the retained text into a new image reference, so the
cleaned output still contains image-reference syntax. -/
theorem image_removal_cx :
    extract_markdown_content (Except.ok (String.toList "!![a](b)[a](b)")) true none none =
      PyValue.str (String.toList "![a](b)") ∧
    (findImageMatch (String.toList "![a](b)")).isSome = true := by
  constructor
  · decide
  · decide

/-- Claim C6 as amended: cleaning removes every image reference matched in
a single left-to-right lazy scan, so content containing an image
reference shrinks by at least the five delimiter characters of one match;
but the output is not guaranteed free of image-reference syntax, because
deletion can concatenate retained text into a new match. -/
theorem image_removal_amended :
    ∀ content : List Char,
      (extract_markdown_content (Except.ok content) true none none =
        PyValue.str (headingPass (removeImages content))) ∧
      ((findImageMatch content).isSome = true →
        (removeImages content).length + 5 ≤ content.length) := by
  intro content
  constructor
  · show PyValue.str (sliceContent (processedMarkdown content true) none none) = _
    rw [show sliceContent (processedMarkdown content true) none none =
        processedMarkdown content true from by simp [sliceContent, truthy]]
    rw [show processedMarkdown content true =
        formatMarkdownContent (removeImages content) from rfl]
    rw [(style_substitution_identity (removeImages content)).2.2.2.2]
  · exact removeImages_shrink content

/-- Witness for the amended claim C6 at concrete content. -/
theorem image_removal_amended_w :
    (removeImages (String.toList "x![a](b)y")).length + 5 ≤
      (String.toList "x![a](b)y").length := by
  exact (image_removal_amended (String.toList "x![a](b)y")).2 (by decide)

end WrapCapPDF
